import Mathlib

/-!
Verification of the tellos backend's emotion-analysis pipeline.

The definitions below are shallow embeddings of the Python sources:
* `src/backend/src/models/emotion_analysis.py` (EmotionType, EmotionSegment,
  EmotionAnalysis and their pydantic validators),
* `src/backend/src/services/emotion_analyzer.py` (`_fuse_emotions`,
  `_calculate_overall_emotion`),
* `src/backend/src/services/file_manager.py` (cache put/get with TTL),
* `src/backend/src/services/processing_pipeline.py` (status progression,
  at-most-one-run registry),
* `src/backend/src/api/processing.py` (`get_emotions` endpoint),
* `src/backend/src/api/websocket.py` (`send_real_transcript_update` word lookup).

Python floats are modelled as rationals (ℚ); the constants 1.2, 0.8, 0.5,
1.1 appear as 6/5, 4/5, 1/2, 11/10.
-/

namespace Tellos

/-- The fixed six-label emotion set (`EmotionType` in emotion_analysis.py). -/
inductive EmotionType where
  | anger
  | sadness
  | joy
  | neutral
  | fear
  | surprise
deriving DecidableEq, Repr

/-- The closed set of emotion labels, in declaration order. -/
def allEmotions : List EmotionType :=
  [EmotionType.anger, EmotionType.sadness, EmotionType.joy,
   EmotionType.neutral, EmotionType.fear, EmotionType.surprise]

theorem mem_allEmotions (e : EmotionType) : e ∈ allEmotions := by
  cases e <;> simp [allEmotions]

/-- `EmotionAnalyzer._fuse_emotions` (emotion_analyzer.py lines 362-385):
if the total confidence weight is 0 return (neutral, 0.5); if the emotions
match, boost the averaged confidence by 1.2 capped at 1; otherwise take the
emotion of the strictly higher confidence and penalize it by 0.8. -/
def fuse_emotions (text_emotion : EmotionType) (text_conf : ℚ)
    (audio_emotion : EmotionType) (audio_conf : ℚ) : EmotionType × ℚ :=
  if text_conf + audio_conf = 0 then
    (EmotionType.neutral, 1/2)
  else if text_emotion = audio_emotion then
    (text_emotion, min 1 ((text_conf + audio_conf) / 2 * (6/5)))
  else if audio_conf < text_conf then
    (text_emotion, text_conf * (4/5))
  else
    (audio_emotion, audio_conf * (4/5))

/-- An `EmotionSegment` record (emotion_analysis.py lines 20-52). -/
structure EmotionSegment where
  start_time : ℚ
  end_time : ℚ
  textual_emotion : EmotionType
  textual_confidence : ℚ
  tonal_emotion : EmotionType
  tonal_confidence : ℚ
  combined_emotion : EmotionType
  combined_confidence : ℚ
deriving DecidableEq, Repr

/-- The pydantic field constraints of `EmotionSegment`: `start_time >= 0`,
`end_time > 0`, the `end_time_must_be_after_start` validator, and the
`ge=0, le=1` bounds on all three confidences. -/
def validSegmentFields (st et tc ac cc : ℚ) : Bool :=
  decide (0 ≤ st) && decide (0 < et) && decide (st < et) &&
  decide (0 ≤ tc) && decide (tc ≤ 1) &&
  decide (0 ≤ ac) && decide (ac ≤ 1) &&
  decide (0 ≤ cc) && decide (cc ≤ 1)

/-- The `validate_combined_confidence` validator (emotion_analysis.py lines
39-47): reject when `v < min(tc, ac) * 0.5` or `v > max(tc, ac) * 1.1`. -/
def validCombinedBand (tc ac cc : ℚ) : Bool :=
  !(decide (cc < min tc ac * (1/2))) && !(decide (max tc ac * (11/10) < cc))

/-- Constructing an `EmotionSegment`: pydantic validation succeeds iff every
field constraint and the combined-confidence band hold; on success the record
holds the given values unchanged. -/
def mkEmotionSegment (st et : ℚ) (te : EmotionType) (tc : ℚ)
    (ae : EmotionType) (ac : ℚ) (ce : EmotionType) (cc : ℚ) :
    Option EmotionSegment :=
  if validSegmentFields st et tc ac cc && validCombinedBand tc ac cc then
    some ⟨st, et, te, tc, ae, ac, ce, cc⟩
  else
    none

/-- Adjacent-pair check of `validate_segment_timing_order` (emotion_analysis.py
lines 64-82): reject when `current.start_time < previous.start_time`
(chronological order) or `current.start_time < previous.end_time` (overlap). -/
def segPairOk (p c : EmotionSegment) : Bool :=
  !(decide (c.start_time < p.start_time)) && !(decide (c.start_time < p.end_time))

/-- `validate_segment_timing_order`: walk adjacent pairs; lists of length < 2
are accepted unconditionally. -/
def validate_segment_timing_order : List EmotionSegment → Bool
  | [] => true
  | [_] => true
  | p :: c :: rest => segPairOk p c && validate_segment_timing_order (c :: rest)

/-- An `EmotionAnalysis` record (emotion_analysis.py lines 54-62). -/
structure EmotionAnalysis where
  audio_file_id : String
  segments : List EmotionSegment
  overall_emotion : EmotionType
  overall_confidence : ℚ
deriving DecidableEq, Repr

/-- Constructing an `EmotionAnalysis`: the segment list must pass
`validate_segment_timing_order` and `overall_confidence` its `ge=0, le=1`
bounds (`validate_overall_emotion_consistency` never fails); on success the
segment list is stored unchanged, never repaired. -/
def mkEmotionAnalysis (fid : String) (segs : List EmotionSegment)
    (oe : EmotionType) (oc : ℚ) : Option EmotionAnalysis :=
  if validate_segment_timing_order segs && decide (0 ≤ oc) && decide (oc ≤ 1) then
    some ⟨fid, segs, oe, oc⟩
  else
    none

/-- Segments accepted by the validator are pairwise chronologically ordered
and non-overlapping, given each segment individually satisfies
`start_time < end_time`. -/
theorem validate_imp_pairwise (segs : List EmotionSegment)
    (hvalid : ∀ s ∈ segs, s.start_time < s.end_time)
    (h : validate_segment_timing_order segs = true) :
    List.Pairwise (fun a b => a.end_time ≤ b.start_time) segs := by
  induction segs with
  | nil => exact List.Pairwise.nil
  | cons p rest ih =>
    cases rest with
    | nil => simp
    | cons c rest' =>
      simp only [validate_segment_timing_order, Bool.and_eq_true] at h
      obtain ⟨hpc, hrest⟩ := h
      have hvalid' : ∀ s ∈ c :: rest', s.start_time < s.end_time := by
        intro s hs
        exact hvalid s (List.mem_cons_of_mem _ hs)
      have hpair := ih hvalid' hrest
      refine List.Pairwise.cons ?_ hpair
      intro b hb
      have hce : p.end_time ≤ c.start_time := by
        simp only [segPairOk, Bool.and_eq_true, Bool.not_eq_true',
          decide_eq_false_iff_not, not_lt] at hpc
        exact hpc.2
      rcases List.mem_cons.mp hb with hbc | hbrest
      · exact hbc ▸ hce
      · have hcb : c.end_time ≤ b.start_time := by
          exact (List.pairwise_cons.mp hpair).1 b hbrest
        have hc : c.start_time < c.end_time := hvalid c (by simp)
        linarith

/-- Pairwise ordered non-overlapping segments pass the validator. -/
theorem pairwise_imp_validate (segs : List EmotionSegment)
    (h : List.Pairwise (fun a b => a.end_time ≤ b.start_time) segs)
    (hvalid : ∀ s ∈ segs, s.start_time < s.end_time) :
    validate_segment_timing_order segs = true := by
  induction segs with
  | nil => rfl
  | cons p rest ih =>
    cases rest with
    | nil => rfl
    | cons c rest' =>
      obtain ⟨hp, hrest⟩ := List.pairwise_cons.mp h
      have hpc : p.end_time ≤ c.start_time := hp c (by simp)
      have hps : p.start_time < p.end_time := hvalid p (by simp)
      simp only [validate_segment_timing_order, Bool.and_eq_true]
      constructor
      · simp only [segPairOk, Bool.and_eq_true, Bool.not_eq_true',
          decide_eq_false_iff_not, not_lt]
        exact ⟨by linarith, hpc⟩
      · exact ih hrest (fun s hs => hvalid s (List.mem_cons_of_mem _ hs))

/-- C1 counterexample: the claim demands `fuse(e, c, e, c) = (e, min(1, c*1.2))`
for every confidence `c ∈ [0,1]`, but at `c = 0` the total-weight-zero branch
of `_fuse_emotions` returns `(neutral, 0.5)` instead of `(anger, 0)`. -/
theorem fuse_idempotent_fails_at_zero :
    fuse_emotions EmotionType.anger 0 EmotionType.anger 0 =
      (EmotionType.neutral, 1/2) ∧
    fuse_emotions EmotionType.anger 0 EmotionType.anger 0 ≠
      (EmotionType.anger, min 1 ((0 : ℚ) * (6/5))) := by
  constructor
  · simp [fuse_emotions]
  · simp [fuse_emotions]

/-- C1 (amended): whenever the textual and tonal emotions are equal and the
confidences are not both zero, `_fuse_emotions` returns that emotion with
confidence `min(1, average * 1.2)`; in particular
`fuse(e, c, e, c) = (e, min(1, c*1.2))` for every `c ∈ (0,1]`. -/
theorem fuse_agreement_boost (e : EmotionType) (tc ac : ℚ)
    (h : 0 < tc + ac) :
    fuse_emotions e tc e ac = (e, min 1 ((tc + ac) / 2 * (6/5))) := by
  unfold fuse_emotions
  rw [if_neg (ne_of_gt h), if_pos rfl]

/-- C1 witness: the spec's own scenario, `fuse(JOY, 0.8, JOY, 0.7)` yields
`(JOY, 0.9)`. -/
theorem fuse_agreement_boost_witness :
    fuse_emotions EmotionType.joy (4/5) EmotionType.joy (7/10) =
      (EmotionType.joy, 9/10) := by
  rw [fuse_agreement_boost EmotionType.joy (4/5) (7/10) (by norm_num)]
  norm_num [min_def]

/-- C2 counterexample: the claim demands confidence `<= max(c1, c2)` for all
`c1, c2 ∈ [0,1]` with distinct emotions, but at `c1 = c2 = 0` the
total-weight-zero branch returns confidence `0.5 > max 0 0`. -/
theorem fuse_disagreement_fails_at_zero :
    (fuse_emotions EmotionType.anger 0 EmotionType.sadness 0).2 = 1/2 ∧
    ¬ (fuse_emotions EmotionType.anger 0 EmotionType.sadness 0).2 ≤
      max (0 : ℚ) 0 := by
  constructor
  · simp [fuse_emotions]
  · simp [fuse_emotions]

/-- C2 (amended): for distinct emotions with nonnegative confidences not both
zero, the fused confidence never exceeds the stronger input. -/
theorem fuse_disagreement_penalty (e1 e2 : EmotionType) (c1 c2 : ℚ)
    (h1 : 0 ≤ c1) (h2 : 0 ≤ c2) (hne : e1 ≠ e2) (hpos : 0 < c1 + c2) :
    (fuse_emotions e1 c1 e2 c2).2 ≤ max c1 c2 := by
  unfold fuse_emotions
  rw [if_neg (ne_of_gt hpos), if_neg hne]
  by_cases hlt : c2 < c1
  · rw [if_pos hlt]
    have : c1 * (4/5) ≤ c1 := by linarith
    exact le_trans this (le_max_left _ _)
  · rw [if_neg hlt]
    have : c2 * (4/5) ≤ c2 := by linarith
    exact le_trans this (le_max_right _ _)

/-- C2 witness: `fuse(anger, 1/2, sadness, 1/4)` has confidence
`2/5 <= max (1/2) (1/4)`. -/
theorem fuse_disagreement_penalty_witness :
    (fuse_emotions EmotionType.anger (1/2) EmotionType.sadness (1/4)).2 ≤
      max (1/2 : ℚ) (1/4) :=
  fuse_disagreement_penalty EmotionType.anger EmotionType.sadness (1/2) (1/4)
    (by norm_num) (by norm_num) (by simp) (by norm_num)

/-- C10: given all other field constraints hold, `EmotionSegment` construction
succeeds exactly when the combined confidence lies in the band
`[0.5 * min(tc, ac), 1.1 * max(tc, ac)]`; every successfully constructed
segment therefore satisfies the band. -/
theorem combined_confidence_band (st et : ℚ) (te : EmotionType) (tc : ℚ)
    (ae : EmotionType) (ac : ℚ) (ce : EmotionType) (cc : ℚ)
    (hf : validSegmentFields st et tc ac cc = true) :
    (mkEmotionSegment st et te tc ae ac ce cc).isSome = true ↔
      (min tc ac * (1/2) ≤ cc ∧ cc ≤ max tc ac * (11/10)) := by
  unfold mkEmotionSegment
  rw [hf]
  constructor
  · intro h
    by_cases hb : validCombinedBand tc ac cc = true
    · simp only [validCombinedBand, Bool.and_eq_true, Bool.not_eq_true',
        decide_eq_false_iff_not, not_lt] at hb
      exact hb
    · simp [hb] at h
  · intro h
    have hb : validCombinedBand tc ac cc = true := by
      simp only [validCombinedBand, Bool.and_eq_true, Bool.not_eq_true',
        decide_eq_false_iff_not, not_lt]
      exact h
    simp [hb]

/-- C10 witness: at `tc = ac = 1/2`, construction succeeds exactly for
combined confidences in `[1/4, 11/20]`; evaluated at `cc = 2/5`. -/
theorem combined_confidence_band_witness :
    (mkEmotionSegment 0 1 EmotionType.joy (1/2) EmotionType.joy (1/2)
      EmotionType.joy (2/5)).isSome = true := by
  rw [combined_confidence_band 0 1 EmotionType.joy (1/2) EmotionType.joy (1/2)
    EmotionType.joy (2/5) (by norm_num [validSegmentFields])]
  norm_num [min_def, max_def]

/-- The C10 band is strictly tighter than the agreement-boost formula: fusing
two agreeing signals of confidence 1/2 yields combined confidence 3/5, which
exceeds the band's upper bound `1.1 * max = 11/20`, so the fused segment would
be rejected at construction. -/
theorem fusion_can_violate_band :
    (fuse_emotions EmotionType.joy (1/2) EmotionType.joy (1/2)).2 =
      3/5 ∧
    (mkEmotionSegment 0 1 EmotionType.joy (1/2) EmotionType.joy (1/2)
      EmotionType.joy
      (fuse_emotions EmotionType.joy (1/2) EmotionType.joy (1/2)).2) = none := by
  constructor
  · norm_num [fuse_emotions, min_def]
  · norm_num [fuse_emotions, min_def, mkEmotionSegment, validSegmentFields,
      validCombinedBand, max_def]

/-- C6: constructing an `EmotionAnalysis` from individually valid segments
containing a pair (in list order) that is out of chronological order or
overlapping is rejected: `mkEmotionAnalysis` returns `none`. -/
theorem emotion_analysis_rejects_bad_segments (fid : String)
    (segs : List EmotionSegment) (oe : EmotionType) (oc : ℚ)
    (hvalid : ∀ s ∈ segs, s.start_time < s.end_time)
    (i j : Fin segs.length) (hij : i < j)
    (hbad : (segs.get j).start_time < (segs.get i).start_time ∨
            (segs.get j).start_time < (segs.get i).end_time) :
    mkEmotionAnalysis fid segs oe oc = none := by
  unfold mkEmotionAnalysis
  have hv : validate_segment_timing_order segs = false := by
    by_contra h
    have ht : validate_segment_timing_order segs = true := by
      revert h
      cases validate_segment_timing_order segs <;> simp
    have hpw := validate_imp_pairwise segs hvalid ht
    have hle : (segs.get i).end_time ≤ (segs.get j).start_time := by
      rw [List.pairwise_iff_get] at hpw
      exact hpw i j hij
    have hvi : (segs.get i).start_time < (segs.get i).end_time :=
      hvalid _ (segs.get_mem i.1 i.2)
    rcases hbad with hb | hb <;> linarith
  rw [hv]
  simp

/-- C6 witness: two overlapping segments (second starts at 1 before the first
ends at 2) are rejected by `mkEmotionAnalysis`. -/
theorem emotion_analysis_rejects_bad_segments_witness :
    mkEmotionAnalysis "f"
      [⟨0, 2, EmotionType.joy, 1/2, EmotionType.joy, 1/2, EmotionType.joy, 1/2⟩,
       ⟨1, 3, EmotionType.joy, 1/2, EmotionType.joy, 1/2, EmotionType.joy, 1/2⟩]
      EmotionType.joy (1/2) = none := by
  refine emotion_analysis_rejects_bad_segments "f" _ EmotionType.joy (1/2)
    ?_ ⟨0, by norm_num⟩ ⟨1, by norm_num⟩ (by norm_num) ?_
  · intro s hs
    simp only [List.mem_cons, List.not_mem_nil, or_false] at hs
    rcases hs with h | h <;> subst h <;> norm_num
  · right
    norm_num

/-! ### ProcessingPipeline: at-most-one run per file id (C3) -/

/-- `ProcessingPipeline.start_processing_task` (processing_pipeline.py lines
354-372), modelled on the key set of `self.active_processes`: if the file id
is already registered, return without starting anything (the Bool records
whether a background task was created); otherwise register it and start. The
check and the insertion run without any intervening suspension point, so two
calls are sequential in the event loop. -/
def start_processing_task (active : List String) (fid : String) :
    List String × Bool :=
  if fid ∈ active then (active, false) else (fid :: active, true)

/-- `ProcessingPipeline.is_processing` (lines 374-376). -/
def is_processing (active : List String) (fid : String) : Bool :=
  decide (fid ∈ active)

/-- C3: starting while a run is in flight is a no-op that leaves the registry
unchanged and creates no task; two starts in succession from a state with no
run for `fid` create exactly one registry entry and one task. -/
theorem start_at_most_one_run (active : List String) (fid : String)
    (h : fid ∉ active) :
    (∀ b : List String, fid ∈ b → start_processing_task b fid = (b, false)) ∧
    (start_processing_task active fid).2 = true ∧
    start_processing_task (start_processing_task active fid).1 fid =
      ((start_processing_task active fid).1, false) ∧
    (start_processing_task active fid).1.count fid = 1 ∧
    is_processing (start_processing_task active fid).1 fid = true := by
  refine ⟨?_, ?_, ?_, ?_, ?_⟩
  · intro b hb
    simp [start_processing_task, hb]
  · simp [start_processing_task, h]
  · simp [start_processing_task, h]
  · simp only [start_processing_task, h, if_false, List.count_cons_self]
    rw [List.count_eq_zero.mpr h]
  · simp [start_processing_task, is_processing, h]

/-- C3 witness: starting file "a" twice on a registry that only holds "b". -/
theorem start_at_most_one_run_witness :
    (start_processing_task ["b"] "a").2 = true ∧
    start_processing_task (start_processing_task ["b"] "a").1 "a" =
      ((start_processing_task ["b"] "a").1, false) ∧
    (start_processing_task ["b"] "a").1.count "a" = 1 := by
  have h := start_at_most_one_run ["b"] "a" (by decide)
  exact ⟨h.2.1, h.2.2.1, h.2.2.2.1⟩

/-! ### FileManager cache with TTL (C4)

The cache directory holds one JSON file per `(file_id, data_type)` pair,
modelled as an association list from that key to the pair
`(cached_at, payload)`. Times are rationals (seconds). -/

/-- Look up the stored `(cached_at, payload)` entry for a key (does the cache
file `{fid}_{dt}.json` exist, and what does it hold). -/
def lookupCache {α : Type} :
    List ((String × String) × ℚ × α) → String → String → Option (ℚ × α)
  | [], _, _ => none
  | e :: rest, fid, dt =>
      if e.1 = (fid, dt) then some e.2 else lookupCache rest fid dt

/-- Deleting the cache file for a key (`cache_path.unlink()`). -/
def removeCacheEntry {α : Type} (c : List ((String × String) × ℚ × α))
    (fid dt : String) : List ((String × String) × ℚ × α) :=
  c.filter (fun e => !(decide (e.1 = (fid, dt))))

/-- `FileManager.cache_processed_data` (file_manager.py lines 145-179): write
the payload together with `cached_at = now` under `{fid}_{dt}.json`,
overwriting any previous entry. -/
def cache_processed_data {α : Type} (c : List ((String × String) × ℚ × α))
    (fid dt : String) (now : ℚ) (payload : α) :
    List ((String × String) × ℚ × α) :=
  ((fid, dt), (now, payload)) :: removeCacheEntry c fid dt

/-- `FileManager.get_cached_data` (file_manager.py lines 181-213): if an entry
exists and `now - cached_at < TTL`, return the payload and leave the store
unchanged (no TTL refresh); otherwise delete the entry and return nothing. -/
def get_cached_data {α : Type} (ttl : ℚ) (c : List ((String × String) × ℚ × α))
    (fid dt : String) (now : ℚ) :
    Option α × List ((String × String) × ℚ × α) :=
  match lookupCache c fid dt with
  | none => (none, c)
  | some (cached_at, payload) =>
      if now - cached_at < ttl then (some payload, c)
      else (none, removeCacheEntry c fid dt)

theorem lookupCache_remove {α : Type} (c : List ((String × String) × ℚ × α))
    (fid dt : String) : lookupCache (removeCacheEntry c fid dt) fid dt = none := by
  induction c with
  | nil => rfl
  | cons e rest ih =>
    by_cases he : e.1 = (fid, dt)
    · simpa [removeCacheEntry, List.filter_cons, he] using ih
    · simpa [removeCacheEntry, List.filter_cons, he, lookupCache] using ih

/-- C4: an immediate `get` after `put` returns the payload unchanged; a `get`
before the TTL elapses returns the payload and leaves the store untouched
(no TTL refresh on read); once the elapsed time reaches the TTL, `get`
returns nothing and the entry is gone from storage. -/
theorem cache_ttl_roundtrip {α : Type} (ttl : ℚ) (httl : 0 < ttl)
    (c : List ((String × String) × ℚ × α)) (fid dt : String)
    (now now2 : ℚ) (p : α) :
    (get_cached_data ttl (cache_processed_data c fid dt now p) fid dt now =
      (some p, cache_processed_data c fid dt now p)) ∧
    (now2 - now < ttl →
      get_cached_data ttl (cache_processed_data c fid dt now p) fid dt now2 =
        (some p, cache_processed_data c fid dt now p)) ∧
    (ttl ≤ now2 - now →
      (get_cached_data ttl (cache_processed_data c fid dt now p) fid dt now2).1 =
        none ∧
      lookupCache
        (get_cached_data ttl (cache_processed_data c fid dt now p) fid dt now2).2
        fid dt = none) := by
  have hlook :
      lookupCache (cache_processed_data c fid dt now p) fid dt =
        some (now, p) := by
    simp [cache_processed_data, lookupCache]
  refine ⟨?_, ?_, ?_⟩
  · simp [get_cached_data, hlook, httl]
  · intro hlt
    simp [get_cached_data, hlook, hlt]
  · intro hge
    have hn : ¬ (now2 - now < ttl) := not_lt.mpr hge
    refine ⟨by simp [get_cached_data, hlook, hn], ?_⟩
    have h2 : (get_cached_data ttl (cache_processed_data c fid dt now p)
        fid dt now2).2 =
        removeCacheEntry (cache_processed_data c fid dt now p) fid dt := by
      simp [get_cached_data, hlook, hn]
    rw [h2]
    exact lookupCache_remove _ fid dt

/-- C4 witness: concrete run with TTL 24 (hours), payload 7, written at time 0
and read at times 0 and 24. -/
theorem cache_ttl_roundtrip_witness :
    (get_cached_data (24 : ℚ) (cache_processed_data ([] : List ((String × String) × ℚ × ℕ)) "f" "transcript" 0 7) "f" "transcript" 0 =
      (some 7, cache_processed_data ([] : List ((String × String) × ℚ × ℕ)) "f" "transcript" 0 7)) ∧
    (get_cached_data (24 : ℚ) (cache_processed_data ([] : List ((String × String) × ℚ × ℕ)) "f" "transcript" 0 7) "f" "transcript" 24).1 = none := by
  have h := cache_ttl_roundtrip (24 : ℚ) (by norm_num)
    ([] : List ((String × String) × ℚ × ℕ)) "f" "transcript" 0 24 7
  exact ⟨h.1, (h.2.2 (by norm_num)).1⟩

/-! ### ProcessingPipeline status progression (C5) -/

/-- `ProcessingStatus` (audio_file.py lines 11-18). -/
inductive ProcessingStatus where
  | uploaded
  | extracting_audio
  | transcribing
  | analyzing
  | completed
  | failed
deriving DecidableEq, Repr

/-- `ProcessingPipeline._get_progress_for_status` (processing_pipeline.py
lines 230-240). -/
def get_progress_for_status : ProcessingStatus → ℕ
  | .uploaded => 10
  | .extracting_audio => 25
  | .transcribing => 50
  | .analyzing => 80
  | .completed => 100
  | .failed => 0

/-- The sequence of statuses written by `ProcessingPipeline.process_file`
(lines 33-111), indexed by whether each fallible stage (audio extraction,
transcription, emotion analysis) succeeds: EXTRACTING_AUDIO is written first,
each later status after the previous stage succeeds, and any exception ends
the run with a single FAILED write (caching, broadcasting and cleanup catch
their own exceptions and never raise). -/
def process_file_statuses (audioOk transcribeOk analyzeOk : Bool) :
    List ProcessingStatus :=
  if !audioOk then [.extracting_audio, .failed]
  else if !transcribeOk then [.extracting_audio, .transcribing, .failed]
  else if !analyzeOk then
    [.extracting_audio, .transcribing, .analyzing, .failed]
  else [.extracting_audio, .transcribing, .analyzing, .completed]

/-- A file's full status history: the initial UPLOADED state (the default
`AudioFile.processing_status`, reported as progress 10) followed by the
statuses written by its single owning run. -/
def run_status_trace (audioOk transcribeOk analyzeOk : Bool) :
    List ProcessingStatus :=
  .uploaded :: process_file_statuses audioOk transcribeOk analyzeOk

/-- C5: for every outcome of the three fallible stages, the progress values of
the status history are non-decreasing until the terminal state: the prefix up
to (and, for COMPLETED, including) the terminal status is monotone; only the
teriminal FAILED write (progress 0) is excluded. -/
theorem status_progress_monotone (audioOk transcribeOk analyzeOk : Bool) :
    List.Chain' (fun a b => a ≤ b)
      (((run_status_trace audioOk transcribeOk analyzeOk).takeWhile
          (fun s => decide (s ≠ ProcessingStatus.failed))).map
        get_progress_for_status) := by
  cases audioOk <;> cases transcribeOk <;> cases analyzeOk <;>
    simp [run_status_trace, process_file_statuses, List.takeWhile_cons,
      get_progress_for_status, List.chain'_cons]

/-! ### Dominant emotion: duration-and-confidence-weighted mode (C7) -/

/-- The weight a segment contributes: `duration * combined_confidence`. -/
def segWeight (s : EmotionSegment) : ℚ :=
  (s.end_time - s.start_time) * s.combined_confidence

/-- `emotion_scores[emotion] += weight` on a Python dict: update the entry in
place if the label is present, else append it (insertion order). -/
def addWeight : List (EmotionType × ℚ) → EmotionType → ℚ →
    List (EmotionType × ℚ)
  | [], e, w => [(e, w)]
  | (a, v) :: rest, e, w =>
      if a = e then (a, v + w) :: rest else (a, v) :: addWeight rest e w

/-- Fold a list of `(label, weight)` contributions into the dict. -/
def buildWeights (acc : List (EmotionType × ℚ)) :
    List (EmotionType × ℚ) → List (EmotionType × ℚ)
  | [] => acc
  | p :: ps => buildWeights (addWeight acc p.1 p.2) ps

/-- The per-label weight dict built by the loops of
`EmotionAnalyzer._calculate_overall_emotion` and
`EmotionAnalysis.get_dominant_emotion`. -/
def emotionWeights (segs : List EmotionSegment) : List (EmotionType × ℚ) :=
  buildWeights [] (segs.map (fun s => (s.combined_emotion, segWeight s)))

/-- Python `max(items, key=lambda x: x[1])`: scan keeping the current best,
replacing it only on a strictly larger key, so the first maximal item wins. -/
def maxBySnd (b : EmotionType × ℚ) : List (EmotionType × ℚ) → EmotionType × ℚ
  | [] => b
  | p :: rest => maxBySnd (if b.2 < p.2 then p else b) rest

def pickMax : List (EmotionType × ℚ) → Option (EmotionType × ℚ)
  | [] => none
  | p :: rest => some (maxBySnd p rest)

/-- `EmotionAnalysis.get_dominant_emotion` (emotion_analysis.py lines
117-132): neutral for no segments, else the first maximal entry of the
weight dict. -/
def get_dominant_emotion (segs : List EmotionSegment) : EmotionType :=
  if segs.isEmpty then EmotionType.neutral
  else
    match pickMax (emotionWeights segs) with
    | some p => p.1
    | none => EmotionType.neutral

/-- The `total_weight` accumulated by `_calculate_overall_emotion`. -/
def totalWeight (segs : List EmotionSegment) : ℚ :=
  (segs.map segWeight).sum

/-- `EmotionAnalyzer._calculate_overall_emotion` (emotion_analyzer.py lines
387-417): neutral for no segments or zero total weight; otherwise normalize
the weight dict by the total weight and take its first maximal entry. -/
def calculate_overall_emotion (segs : List EmotionSegment) :
    EmotionType × ℚ :=
  if segs.isEmpty then (EmotionType.neutral, 1/2)
  else if totalWeight segs = 0 then (EmotionType.neutral, 1/2)
  else
    match pickMax ((emotionWeights segs).map
        (fun p => (p.1, p.2 / totalWeight segs))) with
    | some p => p
    | none => (EmotionType.neutral, 1/2)

/-- Total weight contributed to one label, straight from the claim's words:
the sum over segments carrying that label of `duration * confidence`. -/
def totalWeightOf (segs : List EmotionSegment) (e : EmotionType) : ℚ :=
  ((segs.filter (fun s => decide (s.combined_emotion = e))).map segWeight).sum

/-- The claim's description of the dominant emotion: the first label, in
iteration order over the segments, whose total weight is maximal over the
whole (closed) label set. -/
def specDominantEmotion (segs : List EmotionSegment) : Option EmotionType :=
  (segs.map (fun s => s.combined_emotion)).find?
    (fun e => decide (∀ e2 ∈ allEmotions,
      totalWeightOf segs e2 ≤ totalWeightOf segs e))

/-- First-occurrence key order of a list of labels. -/
def keyOrder : List EmotionType → List EmotionType
  | [] => []
  | e :: rest => e :: (keyOrder rest).filter (fun x => decide (x ≠ e))

/-- Per-label total over raw `(label, weight)` contribution pairs. -/
def totalW (ps : List (EmotionType × ℚ)) (e : EmotionType) : ℚ :=
  ((ps.filter (fun p => decide (p.1 = e))).map (fun p => p.2)).sum

theorem totalW_nil (e : EmotionType) : totalW [] e = 0 := rfl

theorem totalW_cons (k : EmotionType) (w : ℚ) (ps : List (EmotionType × ℚ))
    (e : EmotionType) :
    totalW ((k, w) :: ps) e = (if k = e then w else 0) + totalW ps e := by
  by_cases h : k = e <;> simp [totalW, List.filter_cons, h]

/-- The weight fold never changes the result's value once it is maximal: the
scan either keeps the seed or strictly improves on it. -/
theorem maxBySnd_eq_or_gt (rest : List (EmotionType × ℚ))
    (b : EmotionType × ℚ) :
    maxBySnd b rest = b ∨ b.2 < (maxBySnd b rest).2 := by
  induction rest generalizing b with
  | nil => exact Or.inl rfl
  | cons p r ih =>
    simp only [maxBySnd]
    by_cases h : b.2 < p.2
    · rw [if_pos h]
      rcases ih p with h2 | h2
      · right
        rw [h2]
        exact h
      · right
        exact lt_trans h h2
    · rw [if_neg h]
      exact ih b

theorem maxBySnd_mem (rest : List (EmotionType × ℚ)) (b : EmotionType × ℚ) :
    maxBySnd b rest = b ∨ maxBySnd b rest ∈ rest := by
  induction rest generalizing b with
  | nil => exact Or.inl rfl
  | cons p r ih =>
    simp only [maxBySnd]
    by_cases h : b.2 < p.2
    · rw [if_pos h]
      rcases ih p with h2 | h2
      · rw [h2]
        exact Or.inr (List.mem_cons_self p r)
      · exact Or.inr (List.mem_cons_of_mem p h2)
    · rw [if_neg h]
      rcases ih b with h2 | h2
      · exact Or.inl h2
      · exact Or.inr (List.mem_cons_of_mem p h2)

theorem maxBySnd_le (rest : List (EmotionType × ℚ)) (b : EmotionType × ℚ) :
    b.2 ≤ (maxBySnd b rest).2 := by
  rcases maxBySnd_eq_or_gt rest b with h | h
  · rw [h]
  · exact le_of_lt h

theorem maxBySnd_ge_all (rest : List (EmotionType × ℚ)) (b : EmotionType × ℚ)
    (q : EmotionType × ℚ) (hq : q ∈ rest) : q.2 ≤ (maxBySnd b rest).2 := by
  induction rest generalizing b with
  | nil => cases hq
  | cons p r ih =>
    simp only [maxBySnd]
    rcases List.mem_cons.mp hq with h | h
    · subst h
      by_cases hb : b.2 < q.2
      · rw [if_pos hb]
        exact maxBySnd_le r q
      · rw [if_neg hb]
        exact le_trans (not_lt.mp hb) (maxBySnd_le r b)
    · by_cases hb : b.2 < p.2
      · rw [if_pos hb]
        exact ih p h
      · rw [if_neg hb]
        exact ih b h

/-- When the scan has strictly improved on the seed, the result is the first
element of the tail reaching the maximal value. -/
theorem maxBySnd_find?_of_gt (rest : List (EmotionType × ℚ))
    (b : EmotionType × ℚ) (h : b.2 < (maxBySnd b rest).2) :
    rest.find? (fun q => decide ((maxBySnd b rest).2 ≤ q.2)) =
      some (maxBySnd b rest) := by
  induction rest generalizing b with
  | nil => exact absurd h (lt_irrefl _)
  | cons p r ih =>
    simp only [maxBySnd] at h ⊢
    by_cases hb : b.2 < p.2
    · simp only [if_pos hb] at h ⊢
      rcases maxBySnd_eq_or_gt r p with h2 | h2
      · rw [h2]
        rw [List.find?_cons_of_pos _ (by simp [h2])]
      · have hne : ¬ ((maxBySnd p r).2 ≤ p.2) := not_le.mpr h2
        rw [List.find?_cons_of_neg _ (by simpa using hne)]
        exact ih p h2
    · simp only [if_neg hb] at h ⊢
      have hp : ¬ ((maxBySnd b r).2 ≤ p.2) :=
        not_le.mpr (lt_of_le_of_lt (not_lt.mp hb) h)
      rw [List.find?_cons_of_neg _ (by simpa using hp)]
      exact ih b h

/-- The Python `max` scan returns exactly the first element of the list whose
value is maximal. -/
theorem maxBySnd_find? (rest : List (EmotionType × ℚ)) (b : EmotionType × ℚ) :
    (b :: rest).find? (fun q => decide ((maxBySnd b rest).2 ≤ q.2)) =
      some (maxBySnd b rest) := by
  rcases maxBySnd_eq_or_gt rest b with h | h
  · rw [h]
    rw [List.find?_cons_of_pos _ (by simp [h])]
  · have hne : ¬ ((maxBySnd b rest).2 ≤ b.2) := not_le.mpr h
    rw [List.find?_cons_of_neg _ (by simpa using hne)]
    exact maxBySnd_find?_of_gt rest b h

/-- View of a weight dict as its (distinct) key list and value function. -/
def reprOf (G : List EmotionType) (W : EmotionType → ℚ) :
    List (EmotionType × ℚ) :=
  G.map (fun e => (e, W e))

theorem addWeight_repr_mem (G : List EmotionType) (W : EmotionType → ℚ)
    (k : EmotionType) (w : ℚ) (hk : k ∈ G) (hnd : G.Nodup) :
    addWeight (reprOf G W) k w =
      reprOf G (fun e => if e = k then W e + w else W e) := by
  induction G with
  | nil => cases hk
  | cons g G' ih =>
    have hnd' : G'.Nodup := (List.nodup_cons.mp hnd).2
    by_cases hg : g = k
    · subst hg
      have hgo : g ∉ G' := (List.nodup_cons.mp hnd).1
      simp only [reprOf, List.map_cons, addWeight, if_true]
      congr 1
      refine List.map_congr_left ?_
      intro a ha
      have hag : a ≠ g := fun h => hgo (h ▸ ha)
      rw [if_neg hag]
    · have hk' : k ∈ G' := by
        rcases List.mem_cons.mp hk with h | h
        · exact absurd h.symm hg
        · exact h
      simp only [reprOf, List.map_cons, addWeight]
      rw [if_neg hg, if_neg hg]
      have hrec := ih hk' hnd'
      simp only [reprOf] at hrec
      rw [hrec]

theorem addWeight_repr_not_mem (G : List EmotionType) (W : EmotionType → ℚ)
    (k : EmotionType) (w : ℚ) (hk : k ∉ G) :
    addWeight (reprOf G W) k w =
      reprOf (G ++ [k]) (fun e => if e = k then w else W e) := by
  induction G with
  | nil => simp [reprOf, addWeight]
  | cons g G' ih =>
    have hg : g ≠ k := fun h => hk (h ▸ List.mem_cons_self g G')
    have hk' : k ∉ G' := fun h => hk (List.mem_cons_of_mem g h)
    simp only [reprOf, List.map_cons, addWeight, List.cons_append]
    rw [if_neg hg, if_neg hg]
    have hrec := ih hk'
    simp only [reprOf] at hrec
    rw [hrec]

theorem buildWeights_repr (ps : List (EmotionType × ℚ)) :
    ∀ (G : List EmotionType) (W : EmotionType → ℚ), G.Nodup →
    buildWeights (reprOf G W) ps =
      reprOf
        (G ++ (keyOrder (ps.map Prod.fst)).filter (fun e => decide (e ∉ G)))
        (fun e => (if e ∈ G then W e else 0) + totalW ps e) := by
  induction ps with
  | nil =>
    intro G W _
    simp only [buildWeights, List.map_nil, keyOrder, List.filter_nil,
      List.append_nil]
    refine List.map_congr_left ?_
    intro a ha
    simp only []
    rw [totalW_nil, if_pos ha, add_zero]
  | cons p ps' ih =>
    intro G W hnd
    obtain ⟨k, w⟩ := p
    by_cases hk : k ∈ G
    · simp only [buildWeights]
      rw [addWeight_repr_mem G W k w hk hnd]
      rw [ih G _ hnd]
      have hkeys :
          (keyOrder (((k, w) :: ps').map Prod.fst)).filter
              (fun e => decide (e ∉ G)) =
            (keyOrder (ps'.map Prod.fst)).filter (fun e => decide (e ∉ G)) := by
        simp only [List.map_cons, keyOrder, List.filter_cons]
        rw [if_neg (by simp [hk])]
        rw [List.filter_filter]
        refine List.filter_congr ?_
        intro a _
        by_cases ha : a ∈ G
        · simp [ha]
        · have hak : a ≠ k := fun h => ha (h ▸ hk)
          simp [ha, hak]
      rw [hkeys]
      refine List.map_congr_left ?_
      intro a _
      simp only []
      rw [totalW_cons]
      by_cases hak : a = k
      · subst hak
        rw [if_pos hk, if_pos hk, if_pos rfl, if_pos rfl]
        rw [Prod.mk.injEq]
        exact ⟨rfl, by ring⟩
      · rw [if_neg hak, if_neg (fun h : k = a => hak h.symm), zero_add]
    · simp only [buildWeights]
      rw [addWeight_repr_not_mem G W k w hk]
      have hnd2 : (G ++ [k]).Nodup := by
        rw [List.nodup_append]
        exact ⟨hnd, List.nodup_singleton k, by simpa using hk⟩
      rw [ih (G ++ [k]) _ hnd2]
      have hkeys :
          (G ++ [k]) ++ (keyOrder (ps'.map Prod.fst)).filter
              (fun e => decide (e ∉ G ++ [k])) =
            G ++ (keyOrder (((k, w) :: ps').map Prod.fst)).filter
              (fun e => decide (e ∉ G)) := by
        simp only [List.map_cons, keyOrder, List.filter_cons]
        rw [if_pos (by simp [hk])]
        rw [List.append_assoc, List.singleton_append]
        congr 2
        rw [List.filter_filter]
        refine List.filter_congr ?_
        intro a _
        by_cases hak : a = k
        · simp [hak]
        · by_cases haG : a ∈ G
          · simp [hak, haG]
          · simp [hak, haG]
      rw [hkeys]
      refine List.map_congr_left ?_
      intro a _
      simp only []
      rw [totalW_cons]
      by_cases hak : a = k
      · subst hak
        have hmem : a ∈ G ++ [a] :=
          List.mem_append.mpr (Or.inr (List.mem_singleton.mpr rfl))
        rw [if_pos hmem, if_pos rfl, if_pos rfl, if_neg hk]
        rw [Prod.mk.injEq]
        exact ⟨rfl, by ring⟩
      · have hiff : (a ∈ G ++ [k]) ↔ a ∈ G := by
          rw [List.mem_append, List.mem_singleton]
          exact or_iff_left hak
        rw [if_neg hak, if_neg (fun h : k = a => hak h.symm), zero_add]
        by_cases haG : a ∈ G
        · rw [if_pos (hiff.mpr haG), if_pos haG]
        · rw [if_neg (fun h => haG (hiff.mp h)), if_neg haG]

theorem totalW_map_segs (segs : List EmotionSegment) (a : EmotionType) :
    totalW (segs.map (fun s => (s.combined_emotion, segWeight s))) a =
      totalWeightOf segs a := by
  induction segs with
  | nil => rfl
  | cons s rest ihs =>
    rw [List.map_cons, totalW_cons]
    by_cases hs : s.combined_emotion = a
    · have hto : totalWeightOf (s :: rest) a =
          segWeight s + totalWeightOf rest a := by
        unfold totalWeightOf
        rw [List.filter_cons, if_pos (decide_eq_true hs), List.map_cons,
          List.sum_cons]
      rw [if_pos hs, hto, ihs]
    · have hto : totalWeightOf (s :: rest) a = totalWeightOf rest a := by
        unfold totalWeightOf
        rw [List.filter_cons,
          if_neg (fun hc => hs (of_decide_eq_true hc))]
      rw [if_neg hs, hto, ihs, zero_add]

/-- The weight dict equals the first-occurrence key order paired with the
per-label totals from the claim. -/
theorem emotionWeights_eq (segs : List EmotionSegment) :
    emotionWeights segs =
      reprOf (keyOrder (segs.map (fun s => s.combined_emotion)))
        (fun e => totalWeightOf segs e) := by
  unfold emotionWeights
  have h0 : reprOf [] (fun _ => (0 : ℚ)) = ([] : List (EmotionType × ℚ)) := rfl
  have h := buildWeights_repr
    (segs.map (fun s => (s.combined_emotion, segWeight s))) [] (fun _ => 0)
    List.nodup_nil
  rw [h0] at h
  rw [h]
  have hmapfst :
      (segs.map (fun s => (s.combined_emotion, segWeight s))).map Prod.fst =
        segs.map (fun s => s.combined_emotion) := by
    rw [List.map_map]
    rfl
  rw [hmapfst]
  have hfa : (keyOrder (segs.map (fun s => s.combined_emotion))).filter
      (fun e => decide (e ∉ ([] : List EmotionType))) =
      keyOrder (segs.map (fun s => s.combined_emotion)) := by
    apply List.filter_eq_self.mpr
    intro a _
    simp
  rw [hfa, List.nil_append]
  refine List.map_congr_left ?_
  intro a _
  simp only []
  rw [if_neg (List.not_mem_nil a), zero_add, totalW_map_segs segs a]

theorem totalWeightOf_nonneg (segs : List EmotionSegment)
    (hw : ∀ s ∈ segs, 0 ≤ segWeight s) (e : EmotionType) :
    0 ≤ totalWeightOf segs e := by
  unfold totalWeightOf
  apply List.sum_nonneg
  intro x hx
  obtain ⟨s, hs, rfl⟩ := List.mem_map.mp hx
  exact hw s (List.mem_filter.mp hs).1

theorem totalWeightOf_not_mem (segs : List EmotionSegment) (e : EmotionType)
    (h : e ∉ segs.map (fun s => s.combined_emotion)) :
    totalWeightOf segs e = 0 := by
  unfold totalWeightOf
  have hf : segs.filter (fun s => decide (s.combined_emotion = e)) = [] := by
    apply List.filter_eq_nil_iff.mpr
    intro s hs
    intro hd
    exact h (List.mem_map.mpr ⟨s, hs, of_decide_eq_true hd⟩)
  rw [hf]
  rfl

theorem keyOrder_mem (a : EmotionType) (l : List EmotionType) :
    a ∈ keyOrder l ↔ a ∈ l := by
  induction l with
  | nil => simp [keyOrder]
  | cons e rest ih =>
    simp only [keyOrder, List.mem_cons]
    constructor
    · intro h
      rcases h with h | h
      · exact Or.inl h
      · exact Or.inr (ih.mp (List.mem_of_mem_filter h))
    · intro h
      rcases h with h | h
      · exact Or.inl h
      · by_cases hae : a = e
        · exact Or.inl hae
        · refine Or.inr (List.mem_filter.mpr ⟨ih.mpr h, ?_⟩)
          exact decide_eq_true hae

theorem find?_congr_of_mem {α : Type} (l : List α) (p q : α → Bool)
    (h : ∀ a ∈ l, p a = q a) : l.find? p = l.find? q := by
  induction l with
  | nil => rfl
  | cons a rest ih =>
    have ha := h a (List.mem_cons_self a rest)
    by_cases hp : p a = true
    · rw [List.find?_cons_of_pos _ hp, List.find?_cons_of_pos _ (ha ▸ hp)]
    · rw [List.find?_cons_of_neg _ hp, List.find?_cons_of_neg _ (ha ▸ hp)]
      exact ih (fun b hb => h b (List.mem_cons_of_mem a hb))

theorem find?_filter_ne (l : List EmotionType) (p : EmotionType → Bool)
    (k : EmotionType) (hk : ¬ p k = true) :
    (l.filter (fun x => decide (x ≠ k))).find? p = l.find? p := by
  induction l with
  | nil => rfl
  | cons a rest ih =>
    by_cases hak : a = k
    · subst hak
      rw [List.filter_cons, if_neg (by simp), List.find?_cons_of_neg _ hk]
      exact ih
    · rw [List.filter_cons, if_pos (by simpa using hak)]
      by_cases hp : p a = true
      · rw [List.find?_cons_of_pos _ hp, List.find?_cons_of_pos _ hp]
      · rw [List.find?_cons_of_neg _ hp, List.find?_cons_of_neg _ hp]
        exact ih

/-- Scanning the first-occurrence key order with any label predicate agrees
with scanning the raw occurrence list. -/
theorem find?_keyOrder (l : List EmotionType) (p : EmotionType → Bool) :
    (keyOrder l).find? p = l.find? p := by
  induction l with
  | nil => rfl
  | cons a rest ih =>
    simp only [keyOrder]
    by_cases hp : p a = true
    · rw [List.find?_cons_of_pos _ hp, List.find?_cons_of_pos _ hp]
    · rw [List.find?_cons_of_neg _ hp, List.find?_cons_of_neg _ hp]
      rw [find?_filter_ne _ p a hp]
      exact ih

/-- Dividing every value by a positive constant does not change which entry
the Python max scan selects. -/
theorem maxBySnd_map_scale (t : ℚ) (ht : 0 < t)
    (rest : List (EmotionType × ℚ)) (b : EmotionType × ℚ) :
    maxBySnd (b.1, b.2 / t) (rest.map (fun p => (p.1, p.2 / t))) =
      ((maxBySnd b rest).1, (maxBySnd b rest).2 / t) := by
  induction rest generalizing b with
  | nil => rfl
  | cons p r ih =>
    simp only [List.map_cons, maxBySnd]
    by_cases h : b.2 < p.2
    · rw [if_pos (by exact (div_lt_div_iff_of_pos_right ht).mpr h), if_pos h]
      exact ih p
    · rw [if_neg (fun hc => h ((div_lt_div_iff_of_pos_right ht).mp hc)),
        if_neg h]
      exact ih b

/-- C7 (amended): for nonnegative segment weights, `get_dominant_emotion`
returns exactly the claim's label — the weight-maximal label with ties broken
by first encounter over the segments — and `_calculate_overall_emotion`
agrees whenever the total weight is non-zero (when it is zero the analyzer
returns NEUTRAL instead). -/
theorem dominant_emotion_weighted_mode (segs : List EmotionSegment)
    (hne : segs ≠ [])
    (hw : ∀ s ∈ segs, 0 ≤ segWeight s) :
    specDominantEmotion segs = some (get_dominant_emotion segs) ∧
    (totalWeight segs ≠ 0 →
      (calculate_overall_emotion segs).1 = get_dominant_emotion segs) := by
  have hA : emotionWeights segs =
      reprOf (keyOrder (segs.map (fun s => s.combined_emotion)))
        (fun e => totalWeightOf segs e) := emotionWeights_eq segs
  have hKne : keyOrder (segs.map (fun s => s.combined_emotion)) ≠ [] := by
    cases segs with
    | nil => exact absurd rfl hne
    | cons s rest =>
      simp [keyOrder]
  obtain ⟨b, tl, hbt⟩ : ∃ b tl,
      reprOf (keyOrder (segs.map (fun s => s.combined_emotion)))
        (fun e => totalWeightOf segs e) = b :: tl := by
    cases hK : keyOrder (segs.map (fun s => s.combined_emotion)) with
    | nil => exact absurd hK hKne
    | cons e K =>
      exact ⟨(e, totalWeightOf segs e),
        reprOf K (fun e => totalWeightOf segs e), by simp [reprOf]⟩
  have hEmp : ¬ (segs.isEmpty = true) := by
    cases segs with
    | nil => exact absurd rfl hne
    | cons s rest => simp [List.isEmpty]
  have hpick : pickMax (emotionWeights segs) = some (maxBySnd b tl) := by
    rw [hA, hbt]
    rfl
  have hdom : get_dominant_emotion segs = (maxBySnd b tl).1 := by
    unfold get_dominant_emotion
    rw [if_neg hEmp, hpick]
  have hmA : maxBySnd b tl ∈
      reprOf (keyOrder (segs.map (fun s => s.combined_emotion)))
        (fun e => totalWeightOf segs e) := by
    rw [hbt]
    rcases maxBySnd_mem tl b with h | h
    · rw [h]
      exact List.mem_cons_self b tl
    · exact List.mem_cons_of_mem b h
  obtain ⟨e0, he0K, he0⟩ := List.mem_map.mp hmA
  have hm1 : (maxBySnd b tl).1 = e0 := by rw [← he0]
  have hm2 : (maxBySnd b tl).2 = totalWeightOf segs e0 := by rw [← he0]
  have hmax : ∀ e ∈ keyOrder (segs.map (fun s => s.combined_emotion)),
      totalWeightOf segs e ≤ (maxBySnd b tl).2 := by
    intro e heK
    have hmem : (e, totalWeightOf segs e) ∈
        reprOf (keyOrder (segs.map (fun s => s.combined_emotion)))
          (fun e => totalWeightOf segs e) := List.mem_map_of_mem _ heK
    rw [hbt] at hmem
    rcases List.mem_cons.mp hmem with h | h
    · have hb2 : totalWeightOf segs e = b.2 := by rw [← h]
      rw [hb2]
      exact maxBySnd_le tl b
    · exact maxBySnd_ge_all tl b _ h
  have hbridge : ∀ e : EmotionType,
      (decide (∀ e2 ∈ allEmotions,
        totalWeightOf segs e2 ≤ totalWeightOf segs e)) =
        decide ((maxBySnd b tl).2 ≤ totalWeightOf segs e) := by
    intro e
    apply decide_eq_decide.mpr
    constructor
    · intro h
      have h1 := h e0 (mem_allEmotions e0)
      rw [hm2]
      exact h1
    · intro h
      intro e2 _
      by_cases he2 : e2 ∈ keyOrder (segs.map (fun s => s.combined_emotion))
      · exact le_trans (hmax e2 he2) h
      · have hz : totalWeightOf segs e2 = 0 := by
          apply totalWeightOf_not_mem
          intro hc
          exact he2 ((keyOrder_mem e2 _).mpr hc)
        rw [hz]
        have h0 : (0 : ℚ) ≤ totalWeightOf segs e0 :=
          totalWeightOf_nonneg segs hw e0
        rw [hm2] at h
        exact le_trans h0 h
  have hAfind : List.find? (fun q => decide ((maxBySnd b tl).2 ≤ q.2))
      ((keyOrder (segs.map (fun s => s.combined_emotion))).map
        (fun e => (e, totalWeightOf segs e))) = some (maxBySnd b tl) := by
    have hbt2 : (keyOrder (segs.map (fun s => s.combined_emotion))).map
        (fun e => (e, totalWeightOf segs e)) = b :: tl := hbt
    rw [hbt2]
    exact maxBySnd_find? tl b
  rw [List.find?_map] at hAfind
  obtain ⟨a, hfa, hfa2⟩ := Option.map_eq_some'.mp hAfind
  have ha1 : (maxBySnd b tl).1 = a := by rw [← hfa2]
  have hKfind : (keyOrder (segs.map (fun s => s.combined_emotion))).find?
      (fun e => decide ((maxBySnd b tl).2 ≤ totalWeightOf segs e)) = some a :=
    hfa
  have hLfind : (segs.map (fun s => s.combined_emotion)).find?
      (fun e => decide ((maxBySnd b tl).2 ≤ totalWeightOf segs e)) = some a := by
    rw [← find?_keyOrder]
    exact hKfind
  have hspec : specDominantEmotion segs = some a := by
    unfold specDominantEmotion
    rw [find?_congr_of_mem _ _ _ (fun e _ => hbridge e)]
    exact hLfind
  constructor
  · rw [hspec, hdom, ha1]
  · intro h0
    have hsum : (0 : ℚ) ≤ totalWeight segs := by
      unfold totalWeight
      apply List.sum_nonneg
      intro x hx
      obtain ⟨s, hs, rfl⟩ := List.mem_map.mp hx
      exact hw s hs
    have ht : 0 < totalWeight segs := lt_of_le_of_ne hsum (Ne.symm h0)
    have hpick2 : pickMax ((emotionWeights segs).map
        (fun p => (p.1, p.2 / totalWeight segs))) =
        some ((maxBySnd b tl).1, (maxBySnd b tl).2 / totalWeight segs) := by
      rw [hA, hbt, List.map_cons]
      exact congrArg some (maxBySnd_map_scale (totalWeight segs) ht tl b)
    unfold calculate_overall_emotion
    rw [if_neg hEmp, if_neg h0, hpick2, hdom]

/-- A constructible segment whose weight is zero: all confidences 0. -/
def zeroSeg : EmotionSegment :=
  ⟨0, 1, EmotionType.anger, 0, EmotionType.anger, 0, EmotionType.anger, 0⟩

/-- A constructible segment with positive weight. -/
def domSeg : EmotionSegment :=
  ⟨0, 2, EmotionType.joy, 1/2, EmotionType.joy, 1/2, EmotionType.joy, 1/2⟩

/-- C7 counterexample: on the single (constructible) zero-confidence anger
segment, the claim's label — maximal total weight, ties to the
first-encountered label, here anger — differs from
`_calculate_overall_emotion`, which returns NEUTRAL on zero total weight. -/
theorem calc_overall_ignores_zero_weight :
    mkEmotionSegment 0 1 EmotionType.anger 0 EmotionType.anger 0
      EmotionType.anger 0 = some zeroSeg ∧
    specDominantEmotion [zeroSeg] = some EmotionType.anger ∧
    calculate_overall_emotion [zeroSeg] = (EmotionType.neutral, 1/2) ∧
    (calculate_overall_emotion [zeroSeg]).1 ≠ EmotionType.anger := by
  have hwz : ∀ e, totalWeightOf [zeroSeg] e = 0 := by
    intro e
    unfold totalWeightOf
    simp only [zeroSeg]
    by_cases h : EmotionType.anger = e
    · rw [List.filter_cons, if_pos (decide_eq_true h), List.filter_nil,
        List.map_cons, List.map_nil, List.sum_cons, List.sum_nil]
      norm_num [segWeight, zeroSeg]
    · rw [List.filter_cons, if_neg (fun hc => h (of_decide_eq_true hc)),
        List.filter_nil]
      rfl
  have h0 : totalWeight [zeroSeg] = 0 := by
    norm_num [totalWeight, segWeight, zeroSeg]
  refine ⟨?_, ?_, ?_, ?_⟩
  · norm_num [mkEmotionSegment, validSegmentFields, validCombinedBand,
      zeroSeg, min_def, max_def]
  · unfold specDominantEmotion
    simp only [List.map_cons, List.map_nil]
    rw [List.find?_cons_of_pos _ ?_]
    · rfl
    · apply decide_eq_true
      intro e2 _
      rw [hwz, hwz]
  · unfold calculate_overall_emotion
    rw [if_neg (by simp), if_pos h0]
  · unfold calculate_overall_emotion
    rw [if_neg (by simp), if_pos h0]
    simp

/-- C7 witness: a concrete one-segment run of the amended theorem. -/
theorem dominant_emotion_weighted_mode_witness :
    specDominantEmotion [domSeg] = some (get_dominant_emotion [domSeg]) ∧
    (totalWeight [domSeg] ≠ 0 →
      (calculate_overall_emotion [domSeg]).1 = get_dominant_emotion [domSeg]) :=
  dominant_emotion_weighted_mode [domSeg] (by simp)
    (by
      intro s hs
      simp only [List.mem_singleton] at hs
      subst hs
      norm_num [segWeight, domSeg])

/-! ### GET /processing/file_id/emotions (C8) -/

/-- Outcome of the emotions endpoint: a 409 with the current status, a 404,
or a 200 whose body is read from the cache or fabricated from mock data. -/
inductive EmotionsResponse where
  | conflict (status : ProcessingStatus)
  | notFound
  | ok (overall_emotion : EmotionType) (overall_confidence : ℚ)
      (segments : List EmotionSegment) (from_cache : Bool)
deriving DecidableEq, Repr

/-- The literal mock `EmotionAnalysis` that `get_emotions` fabricates when no
cached analysis exists (processing.py lines 130-157). -/
def mockEmotionAnalysis (fid : String) : EmotionAnalysis :=
  ⟨fid,
   [⟨0, 2, EmotionType.neutral, 17/20, EmotionType.neutral, 39/50,
      EmotionType.neutral, 41/50⟩,
    ⟨2, 24/5, EmotionType.joy, 18/25, EmotionType.neutral, 17/25,
      EmotionType.neutral, 7/10⟩],
   EmotionType.neutral, 19/25⟩

/-- Body of `get_emotions` after the existence checks (processing.py lines
121-178): use the cached analysis if present, else the stored mock, else
fabricate and store a fresh mock. Returns the response and the updated mock
store. -/
def get_emotions_body (cached mockStore : Option EmotionAnalysis)
    (fid : String) : EmotionsResponse × Option EmotionAnalysis :=
  match cached with
  | some a =>
      (EmotionsResponse.ok a.overall_emotion a.overall_confidence
        a.segments true, mockStore)
  | none =>
      match mockStore with
      | some m =>
          (EmotionsResponse.ok m.overall_emotion m.overall_confidence
            m.segments false, mockStore)
      | none =>
          (EmotionsResponse.ok (mockEmotionAnalysis fid).overall_emotion
            (mockEmotionAnalysis fid).overall_confidence
            (mockEmotionAnalysis fid).segments false,
           some (mockEmotionAnalysis fid))

/-- `get_emotions` (processing.py lines 90-178): 409 when the file is known
in memory with an incomplete status; 404 when it is neither in memory nor on
disk; otherwise the body above. -/
def get_emotions (uploadedStatus : Option ProcessingStatus) (onDisk : Bool)
    (cached mockStore : Option EmotionAnalysis) (fid : String) :
    EmotionsResponse × Option EmotionAnalysis :=
  match uploadedStatus with
  | some st =>
      if st ≠ ProcessingStatus.completed then
        (EmotionsResponse.conflict st, mockStore)
      else get_emotions_body cached mockStore fid
  | none =>
      if !onDisk then (EmotionsResponse.notFound, mockStore)
      else get_emotions_body cached mockStore fid

/-- C8 counterexample: for a file known in memory as COMPLETED whose cached
analysis is missing, the claim requires a 404, but the endpoint fabricates
and returns the mock analysis. -/
theorem get_emotions_fabricates_when_cache_missing :
    (get_emotions (some ProcessingStatus.completed) false none none "f").1 ≠
      EmotionsResponse.notFound ∧
    (get_emotions (some ProcessingStatus.completed) false none none "f").1 =
      EmotionsResponse.ok EmotionType.neutral (19/25)
        (mockEmotionAnalysis "f").segments false := by
  constructor
  · simp [get_emotions, get_emotions_body]
  · simp [get_emotions, get_emotions_body, mockEmotionAnalysis]

/-- C8 (amended): the endpoint answers 409 exactly for a known, incomplete
file; 404 exactly when the file is missing from both memory and disk; a
cached analysis is returned verbatim; and with no cached analysis it still
answers 200 with a fabricated (mock) analysis rather than 404. -/
theorem get_emotions_spec (us : Option ProcessingStatus) (onDisk : Bool)
    (cached mockStore : Option EmotionAnalysis) (fid : String) :
    (∀ st, us = some st → st ≠ ProcessingStatus.completed →
      get_emotions us onDisk cached mockStore fid =
        (EmotionsResponse.conflict st, mockStore)) ∧
    (us = none → onDisk = false →
      get_emotions us onDisk cached mockStore fid =
        (EmotionsResponse.notFound, mockStore)) ∧
    (∀ a, cached = some a →
      (us = some ProcessingStatus.completed ∨ (us = none ∧ onDisk = true)) →
      get_emotions us onDisk cached mockStore fid =
        (EmotionsResponse.ok a.overall_emotion a.overall_confidence
          a.segments true, mockStore)) ∧
    (cached = none →
      (us = some ProcessingStatus.completed ∨ (us = none ∧ onDisk = true)) →
      ∃ m : EmotionAnalysis,
        (get_emotions us onDisk cached mockStore fid).1 =
          EmotionsResponse.ok m.overall_emotion m.overall_confidence
            m.segments false) := by
  refine ⟨?_, ?_, ?_, ?_⟩
  · intro st hst hne
    subst hst
    simp [get_emotions, hne]
  · intro hus hdisk
    subst hus
    subst hdisk
    simp [get_emotions]
  · intro a hca hok
    subst hca
    rcases hok with h | ⟨h1, h2⟩
    · subst h
      simp [get_emotions, get_emotions_body]
    · subst h1
      subst h2
      simp [get_emotions, get_emotions_body]
  · intro hca hok
    subst hca
    have hbody : ∃ m : EmotionAnalysis,
        (get_emotions_body none mockStore fid).1 =
          EmotionsResponse.ok m.overall_emotion m.overall_confidence
            m.segments false := by
      cases mockStore with
      | none => exact ⟨mockEmotionAnalysis fid, rfl⟩
      | some m => exact ⟨m, rfl⟩
    rcases hok with h | ⟨h1, h2⟩
    · subst h
      simpa [get_emotions] using hbody
    · subst h1
      subst h2
      simpa [get_emotions] using hbody

/-- C8 witness: concrete 409 and 404 runs of the amended theorem. -/
theorem get_emotions_spec_witness :
    get_emotions (some ProcessingStatus.transcribing) true none none "f" =
      (EmotionsResponse.conflict ProcessingStatus.transcribing, none) ∧
    get_emotions none false none none "f" =
      (EmotionsResponse.notFound, none) :=
  ⟨(get_emotions_spec (some ProcessingStatus.transcribing) true none none
      "f").1 ProcessingStatus.transcribing rfl (by decide),
   (get_emotions_spec none false none none "f").2.1 rfl rfl⟩

/-! ### Realtime transcript word lookup (C9) -/

/-- A `WordSegment` record (transcript.py lines 10-28). -/
structure WordSegment where
  word : String
  start_time : ℚ
  end_time : ℚ
  confidence : ℚ
deriving DecidableEq, Repr

/-- The word-scan loop of `send_real_transcript_update` (websocket.py lines
368-381), carried over the remaining words with the running index and the
previous word's text: report the first word whose interval contains the
cursor, break with the previous word when the cursor lies before the current
word's start, and fall through with `("...", -1)` otherwise. -/
def findWordGo (t : ℚ) : List WordSegment → ℕ → Option String → String × Int
  | [], _, _ => ("...", -1)
  | w :: rest, i, prev =>
      if w.start_time ≤ t ∧ t ≤ w.end_time then (w.word, (i : Int))
      else if t < w.start_time then
        match prev with
        | some pw => (pw, (i : Int) - 1)
        | none => ("...", -1)
      else findWordGo t rest (i + 1) (some w.word)

/-- The `(current_word, word_index)` pair computed by
`send_real_transcript_update` for a cursor time. -/
def find_current_word (words : List WordSegment) (t : ℚ) : String × Int :=
  findWordGo t words 0 none

/-- Structural form of the scan: the relative index and text of the reported
word within the suffix, or none when the loop would report the placeholder. -/
def findSimple (t : ℚ) : List WordSegment → Option (ℕ × String)
  | [] => none
  | w :: rest =>
      if w.start_time ≤ t ∧ t ≤ w.end_time then some (0, w.word)
      else if t < w.start_time then none
      else
        match findSimple t rest with
        | some (j, s) => some (j + 1, s)
        | none =>
            if rest.any (fun r => decide (t < r.start_time)) then
              some (0, w.word)
            else none

theorem findWordGo_bridge (t : ℚ) (ws : List WordSegment) :
    ∀ (i : ℕ) (pw : String),
    findWordGo t ws (i + 1) (some pw) =
      match findSimple t ws with
      | some (j, s) => (s, ((i + 1 + j : ℕ) : Int))
      | none =>
          if ws.any (fun r => decide (t < r.start_time)) then (pw, (i : Int))
          else ("...", -1) := by
  induction ws with
  | nil =>
    intro i pw
    rfl
  | cons w rest ih =>
    intro i pw
    by_cases hc : w.start_time ≤ t ∧ t ≤ w.end_time
    · simp only [findWordGo, findSimple, if_pos hc]
    · by_cases hf : t < w.start_time
      · simp only [findWordGo, findSimple, if_neg hc, if_pos hf,
          List.any_cons, decide_eq_true hf, Bool.true_or, if_true]
        congr 1
        push_cast
        ring
      · simp only [findWordGo, findSimple, if_neg hc, if_neg hf,
          List.any_cons, decide_eq_false hf, Bool.false_or]
        rw [ih (i + 1) w.word]
        cases hfs : findSimple t rest with
        | some p =>
          obtain ⟨j, s⟩ := p
          simp only []
          congr 1
          push_cast
          ring
        | none =>
          cases ha : rest.any (fun r => decide (t < r.start_time)) with
          | true => simp [ha]
          | false => simp [ha]

theorem find_current_word_eq (words : List WordSegment) (t : ℚ) :
    find_current_word words t =
      match findSimple t words with
      | some (j, s) => (s, (j : Int))
      | none => ("...", -1) := by
  cases words with
  | nil => rfl
  | cons w rest =>
    unfold find_current_word
    by_cases hc : w.start_time ≤ t ∧ t ≤ w.end_time
    · simp only [findWordGo, findSimple, if_pos hc]
    · by_cases hf : t < w.start_time
      · simp only [findWordGo, findSimple, if_neg hc, if_pos hf]
      · simp only [findWordGo, findSimple, if_neg hc, if_neg hf]
        rw [findWordGo_bridge t rest 0 w.word]
        cases hfs : findSimple t rest with
        | some p =>
          obtain ⟨j, s⟩ := p
          simp only []
          congr 1
          push_cast
          ring
        | none =>
          simp only []
          cases ha : rest.any (fun r => decide (t < r.start_time)) <;> simp

theorem chain'_start_le (w : WordSegment) (rest : List WordSegment)
    (h : List.Chain' (fun a b => a.start_time ≤ b.start_time) (w :: rest))
    (w0 : WordSegment) (h0 : w0 ∈ rest) : w.start_time ≤ w0.start_time := by
  induction rest generalizing w with
  | nil => cases h0
  | cons r rest2 ih =>
    have hwr : w.start_time ≤ r.start_time := (List.chain'_cons.mp h).1
    rcases List.mem_cons.mp h0 with h1 | h1
    · rw [h1]
      exact hwr
    · exact le_trans hwr (ih r (List.chain'_cons.mp h).2 h1)

/-- Whatever word the scan reports exists at the reported index and never
starts in the future of the cursor. -/
theorem findSimple_sound (t : ℚ) (ws : List WordSegment) :
    ∀ j s, findSimple t ws = some (j, s) →
      ∃ h : j < ws.length,
        (ws.get ⟨j, h⟩).word = s ∧ (ws.get ⟨j, h⟩).start_time ≤ t := by
  induction ws with
  | nil =>
    intro j s h
    simp [findSimple] at h
  | cons w rest ih =>
    intro j s hj
    unfold findSimple at hj
    by_cases hc : w.start_time ≤ t ∧ t ≤ w.end_time
    · rw [if_pos hc] at hj
      simp only [Option.some.injEq, Prod.mk.injEq] at hj
      obtain ⟨rfl, rfl⟩ := hj
      exact ⟨Nat.succ_pos _, rfl, hc.1⟩
    · rw [if_neg hc] at hj
      by_cases hf : t < w.start_time
      · rw [if_pos hf] at hj
        cases hj
      · rw [if_neg hf] at hj
        cases hfs : findSimple t rest with
        | some p =>
          obtain ⟨j0, s0⟩ := p
          rw [hfs] at hj
          have hj2 : some (j0 + 1, s0) = some (j, s) := hj
          simp only [Option.some.injEq, Prod.mk.injEq] at hj2
          obtain ⟨rfl, rfl⟩ := hj2
          obtain ⟨h0, hw0, hst0⟩ := ih j0 s0 hfs
          refine ⟨Nat.succ_lt_succ h0, ?_, ?_⟩
          · rw [List.get_cons_succ]
            exact hw0
          · rw [List.get_cons_succ]
            exact hst0
        | none =>
          rw [hfs] at hj
          by_cases ha : rest.any (fun r => decide (t < r.start_time)) = true
          · have hj2 : (if rest.any (fun r => decide (t < r.start_time))
                then some ((0 : ℕ), w.word) else none) = some (j, s) := hj
            rw [if_pos ha] at hj2
            simp only [Option.some.injEq, Prod.mk.injEq] at hj2
            obtain ⟨rfl, rfl⟩ := hj2
            exact ⟨Nat.succ_pos _, rfl, not_lt.mp hf⟩
          · have hj2 : (if rest.any (fun r => decide (t < r.start_time))
                then some ((0 : ℕ), w.word) else none) = some (j, s) := hj
            rw [if_neg ha] at hj2
            cases hj2

/-- When some word's interval contains the cursor and word starts are
non-decreasing, the scan reports the first containing word. -/
theorem findSimple_contains (t : ℚ) (ws : List WordSegment)
    (hsort : List.Chain' (fun a b => a.start_time ≤ b.start_time) ws)
    (w0 : WordSegment) (hmem : w0 ∈ ws)
    (hc0 : w0.start_time ≤ t ∧ t ≤ w0.end_time) :
    ∃ j s, findSimple t ws = some (j, s) ∧
      ∃ h : j < ws.length,
        (ws.get ⟨j, h⟩).word = s ∧
        (ws.get ⟨j, h⟩).start_time ≤ t ∧ t ≤ (ws.get ⟨j, h⟩).end_time ∧
        ∀ w ∈ ws.take j, ¬ (w.start_time ≤ t ∧ t ≤ w.end_time) := by
  induction ws with
  | nil => cases hmem
  | cons w rest ih =>
    by_cases hcw : w.start_time ≤ t ∧ t ≤ w.end_time
    · refine ⟨0, w.word, ?_, Nat.succ_pos _, rfl, hcw.1, hcw.2, ?_⟩
      · unfold findSimple
        rw [if_pos hcw]
      · intro x hx
        simp at hx
    · have hw0r : w0 ∈ rest := by
        rcases List.mem_cons.mp hmem with h1 | h1
        · exact absurd hc0 (h1 ▸ hcw)
        · exact h1
      have hwle : w.start_time ≤ w0.start_time :=
        chain'_start_le w rest hsort w0 hw0r
      have hwpass : ¬ t < w.start_time :=
        fun hfut => absurd hc0.1 (not_le.mpr (lt_of_lt_of_le hfut hwle))
      obtain ⟨j, s, hfs, h, hword, hst, hen, htake⟩ :=
        ih hsort.tail hw0r
      refine ⟨j + 1, s, ?_, Nat.succ_lt_succ h, ?_, ?_, ?_, ?_⟩
      · unfold findSimple
        rw [if_neg hcw, if_neg hwpass, hfs]
      · rw [List.get_cons_succ]
        exact hword
      · rw [List.get_cons_succ]
        exact hst
      · rw [List.get_cons_succ]
        exact hen
      · intro x hx
        rw [List.take_succ_cons] at hx
        rcases List.mem_cons.mp hx with h1 | h1
        · exact h1 ▸ hcw
        · exact htake x h1

/-- When no word contains the cursor, any reported word is the immediate
predecessor of the first word starting after the cursor, and has already
completed. -/
theorem findSimple_between (t : ℚ) (ws : List WordSegment)
    (hnc : ∀ w ∈ ws, ¬ (w.start_time ≤ t ∧ t ≤ w.end_time)) :
    ∀ j s, findSimple t ws = some (j, s) →
      ∃ h : j + 1 < ws.length,
        (ws.get ⟨j, Nat.lt_of_succ_lt h⟩).word = s ∧
        (ws.get ⟨j, Nat.lt_of_succ_lt h⟩).end_time < t ∧
        t < (ws.get ⟨j + 1, h⟩).start_time := by
  induction ws with
  | nil =>
    intro j s h
    simp [findSimple] at h
  | cons w rest ih =>
    intro j s hj
    have hcw : ¬ (w.start_time ≤ t ∧ t ≤ w.end_time) :=
      hnc w (List.mem_cons_self w rest)
    unfold findSimple at hj
    rw [if_neg hcw] at hj
    by_cases hf : t < w.start_time
    · rw [if_pos hf] at hj
      cases hj
    · rw [if_neg hf] at hj
      have hwend : w.end_time < t := by
        rcases not_and_or.mp hcw with h1 | h1
        · exact absurd (not_lt.mp hf) h1
        · exact not_le.mp h1
      cases hfs : findSimple t rest with
      | some p =>
        obtain ⟨j0, s0⟩ := p
        rw [hfs] at hj
        have hj2 : some (j0 + 1, s0) = some (j, s) := hj
        simp only [Option.some.injEq, Prod.mk.injEq] at hj2
        obtain ⟨rfl, rfl⟩ := hj2
        obtain ⟨h0, hw0, hend0, hfut0⟩ :=
          ih (fun x hx => hnc x (List.mem_cons_of_mem w hx)) j0 s0 hfs
        refine ⟨Nat.succ_lt_succ h0, ?_, ?_, ?_⟩
        · rw [List.get_cons_succ]
          exact hw0
        · rw [List.get_cons_succ]
          exact hend0
        · rw [List.get_cons_succ]
          exact hfut0
      | none =>
        rw [hfs] at hj
        by_cases ha : rest.any (fun r => decide (t < r.start_time)) = true
        · have hj2 : (if rest.any (fun r => decide (t < r.start_time))
              then some ((0 : ℕ), w.word) else none) = some (j, s) := hj
          rw [if_pos ha] at hj2
          simp only [Option.some.injEq, Prod.mk.injEq] at hj2
          obtain ⟨rfl, rfl⟩ := hj2
          cases rest with
          | nil => simp at ha
          | cons r rest2 =>
            have hrfut : t < r.start_time := by
              have hcr : ¬ (r.start_time ≤ t ∧ t ≤ r.end_time) :=
                hnc r (List.mem_cons_of_mem w (List.mem_cons_self r rest2))
              by_contra hrf
              have hrpass : ¬ t < r.start_time := hrf
              unfold findSimple at hfs
              rw [if_neg hcr, if_neg hrpass] at hfs
              cases hfs2 : findSimple t rest2 with
              | some p2 =>
                rw [hfs2] at hfs
                cases hfs
              | none =>
                rw [hfs2] at hfs
                by_cases ha2 : rest2.any (fun r => decide (t < r.start_time)) = true
                · have hfs3 : (if rest2.any (fun r => decide (t < r.start_time))
                      then some ((0 : ℕ), r.word) else none) = none := hfs
                  rw [if_pos ha2] at hfs3
                  cases hfs3
                · have haf : (r :: rest2).any
                      (fun r => decide (t < r.start_time)) = false := by
                    rw [List.any_cons]
                    rw [decide_eq_false hrpass]
                    rw [Bool.false_or]
                    exact Bool.eq_false_iff.mpr ha2
                  rw [haf] at ha
                  cases ha
            exact ⟨Nat.succ_lt_succ (Nat.succ_pos _), rfl, hwend, hrfut⟩
        · have hj2 : (if rest.any (fun r => decide (t < r.start_time))
              then some ((0 : ℕ), w.word) else none) = some (j, s) := hj
          rw [if_neg ha] at hj2
          cases hj2

/-- C9 (amended): for a transcript with non-decreasing word start times, the
transcript_update word lookup (1) never reports a word whose start time is in
the future of the cursor, (2) reports the first word whose interval contains
the cursor when one exists, and (3) when no word contains the cursor, any
reported word is the already-completed immediate predecessor of the first
word starting after the cursor (for non-overlapping words this is the most
recently completed word). -/
theorem transcript_word_lookup (words : List WordSegment) (t : ℚ)
    (hsort : List.Chain' (fun a b => a.start_time ≤ b.start_time) words) :
    (∀ (j : ℕ) (s : String), find_current_word words t = (s, (j : Int)) →
      ∃ h : j < words.length,
        (words.get ⟨j, h⟩).word = s ∧ (words.get ⟨j, h⟩).start_time ≤ t) ∧
    ((∃ w ∈ words, w.start_time ≤ t ∧ t ≤ w.end_time) →
      ∃ (j : ℕ) (h : j < words.length),
        find_current_word words t = ((words.get ⟨j, h⟩).word, (j : Int)) ∧
        (words.get ⟨j, h⟩).start_time ≤ t ∧ t ≤ (words.get ⟨j, h⟩).end_time ∧
        ∀ w ∈ words.take j, ¬ (w.start_time ≤ t ∧ t ≤ w.end_time)) ∧
    ((∀ w ∈ words, ¬ (w.start_time ≤ t ∧ t ≤ w.end_time)) →
      ∀ (j : ℕ) (s : String), find_current_word words t = (s, (j : Int)) →
        ∃ h : j + 1 < words.length,
          (words.get ⟨j, Nat.lt_of_succ_lt h⟩).word = s ∧
          (words.get ⟨j, Nat.lt_of_succ_lt h⟩).end_time < t ∧
          t < (words.get ⟨j + 1, h⟩).start_time) := by
  have heq := find_current_word_eq words t
  cases hfs : findSimple t words with
  | none =>
    rw [hfs] at heq
    refine ⟨?_, ?_, ?_⟩
    · intro j s hres
      rw [heq] at hres
      have h2 : (j : Int) = -1 := (Prod.mk.injEq .. ▸ hres).2.symm
      omega
    · intro hex
      obtain ⟨w0, hw0, hc0⟩ := hex
      obtain ⟨j, s, hfs2, _⟩ := findSimple_contains t words hsort w0 hw0 hc0
      rw [hfs] at hfs2
      cases hfs2
    · intro _ j s hres
      rw [heq] at hres
      have h2 : (j : Int) = -1 := (Prod.mk.injEq .. ▸ hres).2.symm
      omega
  | some p =>
    obtain ⟨j0, s0⟩ := p
    rw [hfs] at heq
    refine ⟨?_, ?_, ?_⟩
    · intro j s hres
      rw [heq] at hres
      have h1 : s0 = s := (Prod.mk.injEq .. ▸ hres).1
      have h2 : ((j0 : Int)) = (j : Int) := (Prod.mk.injEq .. ▸ hres).2
      have hj : j0 = j := by omega
      subst hj
      subst h1
      exact findSimple_sound t words j0 s0 hfs
    · intro hex
      obtain ⟨w0, hw0, hc0⟩ := hex
      obtain ⟨j, s, hfs2, h, hword, hst, hen, htake⟩ :=
        findSimple_contains t words hsort w0 hw0 hc0
      rw [hfs] at hfs2
      simp only [Option.some.injEq, Prod.mk.injEq] at hfs2
      obtain ⟨rfl, rfl⟩ := hfs2
      refine ⟨j0, h, ?_, hst, hen, htake⟩
      rw [heq, hword]
    · intro hnc j s hres
      rw [heq] at hres
      have h1 : s0 = s := (Prod.mk.injEq .. ▸ hres).1
      have h2 : ((j0 : Int)) = (j : Int) := (Prod.mk.injEq .. ▸ hres).2
      have hj : j0 = j := by omega
      subst hj
      subst h1
      exact findSimple_between t words hnc j0 s0 hfs

/-- Three valid (start-sorted) words: "alpha" spans 0-5, "beta" overlaps it at
1-2, "gamma" starts at 10. -/
def cexWords : List WordSegment :=
  [⟨"alpha", 0, 5, 1⟩, ⟨"beta", 1, 2, 1⟩, ⟨"gamma", 10, 11, 1⟩]

/-- C9 counterexample: at cursor time 6 no word contains the cursor; the most
recently completed word is "alpha" (ended at 5; "beta" ended at 2), yet the
lookup reports "beta" — the predecessor in list order, not the most recently
completed word. -/
theorem transcript_lookup_not_most_recent :
    List.Chain' (fun a b => a.start_time ≤ b.start_time) cexWords ∧
    (∀ w ∈ cexWords, ¬ (w.start_time ≤ (6 : ℚ) ∧ (6 : ℚ) ≤ w.end_time)) ∧
    ((cexWords.get ⟨0, by norm_num [cexWords]⟩).word = "alpha" ∧
      (cexWords.get ⟨0, by norm_num [cexWords]⟩).end_time < 6 ∧
      ∀ w ∈ cexWords, w.end_time < 6 →
        w.end_time ≤ (cexWords.get ⟨0, by norm_num [cexWords]⟩).end_time) ∧
    find_current_word cexWords 6 = ("beta", 1) ∧
    "beta" ≠ "alpha" := by
  refine ⟨?_, ?_, ⟨rfl, by norm_num [cexWords], ?_⟩, ?_, by decide⟩
  · norm_num [cexWords, List.chain'_cons]
  · intro w hw
    simp only [cexWords, List.mem_cons, List.not_mem_nil, or_false] at hw
    rcases hw with h | h | h <;> subst h <;> norm_num
  · intro w hw hlt
    simp only [cexWords, List.mem_cons, List.not_mem_nil, or_false] at hw
    rcases hw with h | h | h <;> subst h <;> norm_num [cexWords] at hlt ⊢
  · norm_num [find_current_word, findWordGo, cexWords]

/-- C9 witness: the never-future clause of the amended theorem evaluated on
the concrete transcript at cursor time 6. -/
theorem transcript_word_lookup_witness :
    ∃ h : 1 < cexWords.length,
      (cexWords.get ⟨1, h⟩).word = "beta" ∧
      (cexWords.get ⟨1, h⟩).start_time ≤ 6 :=
  (transcript_word_lookup cexWords 6
      (by norm_num [cexWords, List.chain'_cons])).1 1 "beta"
    (by norm_num [find_current_word, findWordGo, cexWords])

end Tellos
